import Mathlib

/-!
Shallow embedding of the toyc-compiler front end (src/src/main.cpp):
lexer `getok`, recursive-descent parser with precedence climbing
(`ParseExpression`, `ParseBinOpRHS`, ...), and the code-generation walk
(`codegen` methods for the AST node classes).  The C++ globals
(`CurTok`, the module, the builder, `NamedValues`, the error log on
stderr) are threaded as explicit state; fuel makes the parser loops
total.  Machine values are `Nat`/`Int`/`ℚ` with explicit wrapping.
-/

/-- C `isspace` in the default locale (space, \t, \n, \v, \f, \r). -/
def isspaceC (c : Char) : Bool :=
  c = ' ' || c = '\t' || c = '\n' || c = Char.ofNat 11 || c = Char.ofNat 12 || c = '\r'

/-- C `isalpha` for ASCII: A-Z or a-z. -/
def isalphaC (c : Char) : Bool := c.isAlpha

/-- C `isalnum` for ASCII: letter or digit. -/
def isalnumC (c : Char) : Bool := c.isAlpha || c.isDigit

/-- A character the lexer's number rule accepts: digit or '.'
    (`isdigit(nextChar) || nextChar == '.'` in `getok`). -/
def isNumChar (c : Char) : Bool := c.isDigit || c = '.'

/-- Decimal value and length of a digit string. -/
def decDigits (cs : List Char) : Nat × Nat :=
  cs.foldl (fun acc c => (acc.1 * 10 + (c.toNat - 48), acc.2 + 1)) (0, 0)

/-- Models C `strtod` restricted to the `[0-9.]+` strings produced by the
    lexer's number rule: a run of digits, then optionally '.' and a run of
    fraction digits; anything after that (e.g. a second '.') is ignored,
    exactly as `strtod` stops at the first character that cannot extend the
    number.  The value is kept as an exact rational; the IEEE-double
    rounding of the C library is not modelled (it agrees on the short
    literals considered here). -/
def strtodQ (cs : List Char) : ℚ :=
  let ipv := (decDigits (cs.takeWhile Char.isDigit)).1
  match cs.dropWhile Char.isDigit with
  | '.' :: r2 =>
      let fp := decDigits (r2.takeWhile Char.isDigit)
      (ipv : ℚ) + (fp.1 : ℚ) / (10 : ℚ) ^ fp.2
  | _ => (ipv : ℚ)

/-- The token type of the lexer: the `Token` enum plus the data the C++
    code passes through the globals `identifierStr` and `numVal`, and the
    "any other character" case where `getok` returns the character itself. -/
inductive Token where
  | eof : Token
  | defKw : Token
  | externKw : Token
  | ident : String → Token
  | number : ℚ → Token
  | punct : Char → Token
deriving DecidableEq, Repr

/-- `getok`: one step of the lexer.  The input list plays the remaining
    character stream including the one-character lookahead `nextChar`
    (whose initial value ' ' is skipped by the whitespace loop, so the
    initial stream is just the program text).  Returns the token and the
    remaining stream. -/
def getok (input : List Char) : Token × List Char :=
  match input.dropWhile isspaceC with
  | [] => (Token.eof, [])
  | c :: rest =>
    if isalphaC c then
      let idStr := String.mk (c :: rest.takeWhile isalnumC)
      let rem := rest.dropWhile isalnumC
      if idStr = "def" then (Token.defKw, rem)
      else if idStr = "extern" then (Token.externKw, rem)
      else (Token.ident idStr, rem)
    else if isNumChar c then
      (Token.number (strtodQ (c :: rest.takeWhile isNumChar)),
       rest.dropWhile isNumChar)
    else (Token.punct c, rest)

/-- The expression AST: `NumberExprAST`, `VariableExprAST`,
    `BinaryExprAST`, `CallExprAST`. -/
inductive Expr where
  | num : ℚ → Expr
  | var : String → Expr
  | binary : Char → Expr → Expr → Expr
  | call : String → List Expr → Expr

/-- `PrototypeAST`: function name and parameter names. -/
structure Prototype where
  name : String
  args : List String
deriving DecidableEq, Repr

/-- `FunctionAST`: prototype plus body expression. -/
structure FunctionAST where
  proto : Prototype
  body : Expr

/-- Parser state: `CurTok` plus the remaining character stream. -/
structure PState where
  cur : Token
  rest : List Char
deriving DecidableEq, Repr

/-- `getNextToken`: replace `CurTok` with the next token of the stream. -/
def advance (s : PState) : PState :=
  ⟨(getok s.rest).1, (getok s.rest).2⟩

/-- The state after `main`'s priming `getNextToken()` on a given input. -/
def initState (input : String) : PState :=
  ⟨(getok input.data).1, (getok input.data).2⟩

/-- The operator-precedence table installed by `main`:
    `<`→10, `+`→20, `-`→20, `*`→40; `std::map` returns 0 for any other
    key and `GetTokPrecedence` maps non-positive entries to -1. -/
def binopPrecedence (c : Char) : Int :=
  if c = '<' then 10
  else if c = '+' then 20
  else if c = '-' then 20
  else if c = '*' then 40
  else -1

/-- `GetTokPrecedence`: -1 for every non-character token (the negative
    enum values fail `isascii`) and for characters outside the table. -/
def getTokPrecedence (t : Token) : Int :=
  match t with
  | Token.punct c => binopPrecedence c
  | _ => -1

mutual

/-- `ParsePrimary`: dispatch on `CurTok` (identifier, number,
    parenthesis); every other token is the "unknown token when expecting
    an expression" error, modelled as `none`. -/
def parsePrimary : Nat → PState → Option (Expr × PState)
  | 0, _ => none
  | fuel + 1, s =>
    match s.cur with
    | Token.ident name => parseIdentTail fuel name (advance s)
    | Token.number v => some (Expr.num v, advance s)
    | Token.punct c =>
        if c = '(' then parseParenTail fuel (advance s) else none
    | _ => none

/-- The rest of `ParseIdentifierExpr` after the identifier has been eaten:
    a bare identifier is a variable reference; `(` starts a call whose
    arguments `parseArgsLoop` collects up to the closing `)`. -/
def parseIdentTail : Nat → String → PState → Option (Expr × PState)
  | 0, _, _ => none
  | fuel + 1, idName, s =>
    if s.cur = Token.punct '(' then
      let s1 := advance s
      if s1.cur = Token.punct ')' then
        some (Expr.call idName [], advance s1)
      else
        match parseArgsLoop fuel s1 with
        | none => none
        | some (args, s2) => some (Expr.call idName args, advance s2)
    else some (Expr.var idName, s)

/-- The argument loop of `ParseIdentifierExpr`: parse an expression, stop
    at `)`, continue past `,`, anything else is the
    "Expected ')' or ',' in argument list" error. -/
def parseArgsLoop : Nat → PState → Option (List Expr × PState)
  | 0, _ => none
  | fuel + 1, s =>
    match parseExpression fuel s with
    | none => none
    | some (arg, s1) =>
      if s1.cur = Token.punct ')' then some ([arg], s1)
      else if s1.cur = Token.punct ',' then
        match parseArgsLoop fuel (advance s1) with
        | none => none
        | some (args, s2) => some (arg :: args, s2)
      else none

/-- The rest of `ParseParenExpr` after `(` has been eaten: an expression
    followed by a mandatory `)`. -/
def parseParenTail : Nat → PState → Option (Expr × PState)
  | 0, _ => none
  | fuel + 1, s =>
    match parseExpression fuel s with
    | none => none
    | some (v, s1) =>
      if s1.cur = Token.punct ')' then some (v, advance s1) else none

/-- `ParseBinOpRHS`: the precedence-climbing loop.  While the current
    token is a binary operator of precedence at least `exprPrec`, consume
    it, parse a primary right-hand side, let a strictly tighter following
    operator steal the right-hand side at minimum precedence
    `tokPrec + 1`, and fold into a `BinaryExprAST`.  The wildcard branch
    returns the left-hand side like the precedence test does; it is
    reachable only if `exprPrec` were negative, which no call site does. -/
def parseBinOpRHS : Nat → Int → Expr → PState → Option (Expr × PState)
  | 0, _, _, _ => none
  | fuel + 1, exprPrec, lhs, s =>
    let tokPrec := getTokPrecedence s.cur
    if tokPrec < exprPrec then some (lhs, s)
    else
      match s.cur with
      | Token.punct op =>
        let s1 := advance s
        match parsePrimary fuel s1 with
        | none => none
        | some (rhs, s2) =>
          if tokPrec < getTokPrecedence s2.cur then
            match parseBinOpRHS fuel (tokPrec + 1) rhs s2 with
            | none => none
            | some (rhs2, s3) =>
                parseBinOpRHS fuel exprPrec (Expr.binary op lhs rhs2) s3
          else parseBinOpRHS fuel exprPrec (Expr.binary op lhs rhs) s2
      | _ => some (lhs, s)

/-- `ParseExpression`: a primary followed by `ParseBinOpRHS` at minimum
    precedence 0. -/
def parseExpression : Nat → PState → Option (Expr × PState)
  | 0, _ => none
  | fuel + 1, s =>
    match parsePrimary fuel s with
    | none => none
    | some (lhs, s1) => parseBinOpRHS fuel 0 lhs s1

end

/-- The parameter-name loop of `ParsePrototype`:
    `while (getNextToken() == tok_identifier) ArgNames.push_back(...)` —
    the caller has already advanced past `(`, so this starts at the token
    after it and collects identifiers until a non-identifier appears. -/
def protoArgsLoop : Nat → PState → List String × PState
  | 0, s => ([], s)
  | fuel + 1, s =>
    match s.cur with
    | Token.ident n =>
        let r := protoArgsLoop fuel (advance s)
        (n :: r.1, r.2)
    | _ => ([], s)

/-- `ParsePrototype`: function-name identifier, `(`, parameter names,
    mandatory `)`. -/
def parsePrototype (fuel : Nat) (s : PState) : Option (Prototype × PState) :=
  match s.cur with
  | Token.ident fnName =>
    let s1 := advance s
    if s1.cur = Token.punct '(' then
      let r := protoArgsLoop fuel (advance s1)
      if r.2.cur = Token.punct ')' then
        some (⟨fnName, r.1⟩, advance r.2)
      else none
    else none
  | _ => none

/-- `ParseDefinition`: eat `def`, parse a prototype, parse one expression
    as the body. -/
def parseDefinition (fuel : Nat) (s : PState) : Option (FunctionAST × PState) :=
  match parsePrototype fuel (advance s) with
  | none => none
  | some (proto, s1) =>
    match parseExpression fuel s1 with
    | none => none
    | some (e, s2) => some (⟨proto, e⟩, s2)

/-- `ParseExtern`: eat `extern` and parse a prototype. -/
def parseExternDecl (fuel : Nat) (s : PState) : Option (Prototype × PState) :=
  parsePrototype fuel (advance s)

/-- Lex-and-parse one expression from a string, as `MainLoop` +
    `ParseTopLevelExpr` would for a top-level expression. -/
def parseTopExpr (input : String) : Option Expr :=
  (parseExpression 1000 (initState input)).map Prod.fst

/-- An IR value handle: an `i32` constant (`ConstantInt`), a function
    argument (identified by enclosing function name and position), or the
    result of the `id`-th emitted instruction. -/
inductive Value where
  | constInt : Nat → Nat → Value
  | arg : String → Nat → Value
  | instrRef : Nat → Value
deriving DecidableEq, Repr

/-- The IR instructions this code generator can emit. -/
inductive Instr where
  | add : Value → Value → Instr
  | sub : Value → Value → Instr
  | mul : Value → Value → Instr
  | icmpULT : Value → Value → Instr
  | zext : Value → Nat → Instr
  | callInstr : String → List Value → Instr
  | ret : Value → Instr

/-- An `llvm::Function` in the module: its symbol name, its parameter
    names (every parameter and the return are `i32`, so only names are
    recorded), and its basic blocks — `[]` for a declaration without a
    body. -/
structure Func where
  name : String
  params : List String
  blocks : List (List Instr)

/-- The code-generation state: the module's function list, the contents
    of the basic block the builder currently inserts into, the
    per-function `NamedValues` symbol table, the diagnostics written by
    `LogError`/`LogErrorV`, and a counter for fresh instruction ids. -/
structure CGState where
  module : List Func
  builder : List Instr
  namedValues : List (String × Value)
  errors : List String
  nextId : Nat

/-- The state right after `InitializeModuleAndPassManager`. -/
def cgInit : CGState := ⟨[], [], [], [], 0⟩

/-- `std::map::operator[]=`: overwrite the binding of `k` if present,
    append it otherwise. -/
def mapInsert (m : List (String × Value)) (k : String) (v : Value) :
    List (String × Value) :=
  match m with
  | [] => [(k, v)]
  | (k', v') :: rest =>
      if k' = k then (k, v) :: rest else (k', v') :: mapInsert rest k v

/-- `std::map` lookup. -/
def mapFind (m : List (String × Value)) (k : String) : Option Value :=
  match m with
  | [] => none
  | (k', v') :: rest => if k' = k then some v' else mapFind rest k

/-- `Module::getFunction`: the function with exactly this symbol name. -/
def lookupFunction (m : List Func) (name : String) : Option Func :=
  m.find? (fun f => f.name = name)

/-- Whether a symbol name is already taken in the module. -/
def nameTaken (m : List Func) (n : String) : Bool :=
  m.any (fun f => f.name = n)

/-- Models LLVM's symbol-table renaming on insertion of a clashing name:
    candidates `base.1`, `base.2`, ... until a free one is found.  The
    fuel `m.length + 1` suffices because the module holds only
    `m.length` names; the fuel-exhausted fallback is unreachable. -/
def uniquifyFrom (m : List Func) (base : String) : Nat → Nat → String
  | k, 0 => base ++ "." ++ toString k
  | k, fuel + 1 =>
      if nameTaken m (base ++ "." ++ toString k) then
        uniquifyFrom m base (k + 1) fuel
      else base ++ "." ++ toString k

/-- The name under which `llvm::Function::Create` registers a new
    function: the requested name if free, a renamed variant otherwise. -/
def uniquifyName (m : List Func) (n : String) : String :=
  if nameTaken m n then uniquifyFrom m n 1 (m.length + 1) else n

/-- `LogErrorV`: record the diagnostic and return the null value. -/
def logErrorV (msg : String) (st : CGState) : Option Value × CGState :=
  (none, { st with errors := st.errors ++ [msg] })

/-- Append one instruction to the block under construction. -/
def emitSt (i : Instr) (st : CGState) : CGState :=
  { st with builder := st.builder ++ [i], nextId := st.nextId + 1 }

/-- `IRBuilder::Create...`: emit an instruction and hand back the handle
    of its result value. -/
def emit (i : Instr) (st : CGState) : Option Value × CGState :=
  (some (Value.instrRef st.nextId), emitSt i st)

/-- The value `llvm::APInt(32, Val, true)` built from the lexed `double`:
    the C++ `double`→`uint64_t` conversion truncates toward zero (the
    lexer only produces nonnegative values, so `⌊·⌋` is that truncation)
    and the `APInt` keeps the low 32 bits. -/
def ratToConst32 (q : ℚ) : Nat := (⌊q⌋).toNat % 2 ^ 32

mutual

/-- `codegen` for expression nodes (`NumberExprAST::codegen`,
    `VariableExprAST::codegen`, `BinaryExprAST::codegen`,
    `CallExprAST::codegen`). -/
def exprCodegen : Expr → CGState → Option Value × CGState
  | Expr.num v, st => (some (Value.constInt 32 (ratToConst32 v)), st)
  | Expr.var n, st =>
      match mapFind st.namedValues n with
      | some v => (some v, st)
      | none => logErrorV "Unknown variable name" st
  | Expr.binary op l r, st =>
      let pl := exprCodegen l st
      let pr := exprCodegen r pl.2
      match pl.1, pr.1 with
      | some L, some R =>
          if op = '+' then emit (Instr.add L R) pr.2
          else if op = '-' then emit (Instr.sub L R) pr.2
          else if op = '*' then emit (Instr.mul L R) pr.2
          else if op = '<' then
            let pc := emit (Instr.icmpULT L R) pr.2
            match pc.1 with
            | some c => emit (Instr.zext c 32) pc.2
            | none => (none, pc.2)
          else logErrorV "invalid binary operator" pr.2
      | _, _ => (none, pr.2)
  | Expr.call callee args, st =>
      match lookupFunction st.module callee with
      | none => logErrorV "Unknown function referenced" st
      | some F =>
          if F.params.length ≠ args.length then
            logErrorV "Incorrect # arguments passed" st
          else
            match argsCodegen args st with
            | (none, st1) => (none, st1)
            | (some vs, st1) => emit (Instr.callInstr F.name vs) st1

/-- The argument loop of `CallExprAST::codegen`: generate each argument
    left to right, aborting at the first null result. -/
def argsCodegen : List Expr → CGState → Option (List Value) × CGState
  | [], st => (some [], st)
  | a :: rest, st =>
      match exprCodegen a st with
      | (none, st1) => (none, st1)
      | (some v, st1) =>
          match argsCodegen rest st1 with
          | (none, st2) => (none, st2)
          | (some vs, st2) => (some (v :: vs), st2)

end

/-- The `NamedValues` table built at the start of
    `FunctionAST::codegen`: cleared, then one entry per argument of the
    looked-up function, later duplicates overwriting earlier ones. -/
def nvOfFunc (F : Func) : List (String × Value) :=
  (List.zip (List.range F.params.length) F.params).foldl
    (fun m ip => mapInsert m ip.2 (Value.arg F.name ip.1)) []

/-- `PrototypeAST::codegen`: unconditionally create a new function with
    one `i32` parameter per declared name, `i32` return, external
    linkage, parameter names set from the prototype, and insert it into
    the module (renamed by the symbol table if the name is taken). -/
def prototypeCodegen (p : Prototype) (st : CGState) : Func × CGState :=
  let f : Func := ⟨uniquifyName st.module p.name, p.args, []⟩
  (f, { st with module := st.module ++ [f] })

/-- The first step of `FunctionAST::codegen`:
    `TheModule->getFunction(Proto->getName())`, falling back to
    `Proto->codegen()` only when the name is not yet declared. -/
def resolveFn (p : Prototype) (st : CGState) : Func × CGState :=
  match lookupFunction st.module p.name with
  | some F => (F, st)
  | none => prototypeCodegen p st

/-- The state in which the body of a function definition is generated:
    builder aimed at a fresh entry block, `NamedValues` rebuilt from the
    resolved function's own arguments. -/
def bodyEntry (fn : Func) (st : CGState) : CGState :=
  { st with builder := [], namedValues := nvOfFunc fn }

/-- `FunctionAST::codegen`: fetch the declaration by name (creating one
    from the prototype only if absent), open a fresh entry block, rebuild
    `NamedValues` from that function's arguments, generate the body; on
    success append `ret` and commit the block to the module's copy of the
    function, on failure `eraseFromParent` removes the function — and
    with it every instruction emitted into its block. -/
def functionCodegen (f : FunctionAST) (st : CGState) : Option Func × CGState :=
  let r := resolveFn f.proto st
  let fn := r.1
  let st2 := bodyEntry fn r.2
  match exprCodegen f.body st2 with
  | (some retV, st3) =>
      let fn' := { fn with blocks := fn.blocks ++ [st3.builder ++ [Instr.ret retV]] }
      (some fn',
       { st3 with
         module := st3.module.map (fun g => if g.name = fn.name then fn' else g),
         builder := [] })
  | (none, st3) =>
      (none,
       { st3 with
         module := st3.module.filter (fun g => g.name ≠ fn.name),
         builder := [] })

mutual

/-- Whether every `BinaryExprAST` node in an expression carries one of
    the four operators of the precedence table. -/
def opsValid : Expr → Bool
  | Expr.num _ => true
  | Expr.var _ => true
  | Expr.binary op l r =>
      (op = '<' || op = '+' || op = '-' || op = '*') && opsValid l && opsValid r
  | Expr.call _ args => opsValidList args

/-- `opsValid` over an argument list. -/
def opsValidList : List Expr → Bool
  | [] => true
  | a :: rest => opsValid a && opsValidList rest

end

/-- The two-form run of testable property "Redefinition": feed
    `extern foo(a b)` through `HandleExtern` (parse + prototype codegen),
    then `def foo(a b) a+b` through `HandleDefinition` (parse + function
    codegen), starting from a fresh module. -/
def runC3 : Option Func × CGState :=
  match parseExternDecl 100 (initState "extern foo(a b)") with
  | some (p, _) =>
      let r1 := prototypeCodegen p cgInit
      match parseDefinition 100 (initState "def foo(a b) a+b") with
      | some (f, _) => functionCodegen f r1.2
      | none => (none, r1.2)
  | none => (none, cgInit)

/-! ## Helper lemmas -/

theorem lookupFunction_eq_none_iff (m : List Func) (n : String) :
    lookupFunction m n = none ↔ nameTaken m n = false := by
  simp [lookupFunction, nameTaken, List.find?_eq_none, List.any_eq_true]

theorem lookupFunction_name (m : List Func) (n : String) (F : Func)
    (h : lookupFunction m n = some F) : F.name = n := by
  have := List.find?_some h
  simpa using this

theorem uniquifyName_of_free (m : List Func) (n : String)
    (h : nameTaken m n = false) : uniquifyName m n = n := by
  simp [uniquifyName, h]

/-! ## Claim theorems -/

/-- C1: with the operator table `<`→10, `+`→20, `-`→20, `*`→40,
    `ParseExpression` binds `*` tighter than `+` (`1+2*3` is
    `1+(2*3)`), honours parentheses (`(1+2)*3` is `(1+2)*3`), and
    associates equal-precedence chains to the left (`1-2-3` is
    `(1-2)-3`). -/
theorem parseExpression_precedence_examples :
    parseTopExpr "1+2*3" =
      some (Expr.binary '+' (Expr.num 1)
        (Expr.binary '*' (Expr.num 2) (Expr.num 3))) ∧
    parseTopExpr "(1+2)*3" =
      some (Expr.binary '*'
        (Expr.binary '+' (Expr.num 1) (Expr.num 2)) (Expr.num 3)) ∧
    parseTopExpr "1-2-3" =
      some (Expr.binary '-'
        (Expr.binary '-' (Expr.num 1) (Expr.num 2)) (Expr.num 3)) :=
  ⟨rfl, rfl, rfl⟩

/-- C2 counterexample: with `foo` already declared in the module, running
    prototype codegen for another `foo` does not retrieve the existing
    declaration — it creates and inserts a second function (renamed
    `foo.1` by the symbol table), so the module then holds two functions
    where the claim promises reuse of the one. -/
theorem prototypeCodegen_creates_duplicate_counterexample :
    (prototypeCodegen ⟨"foo", ["a"]⟩ cgInit).2.module.map Func.name = ["foo"] ∧
    (prototypeCodegen ⟨"foo", ["a", "b"]⟩
        (prototypeCodegen ⟨"foo", ["a"]⟩ cgInit).2).2.module.map Func.name =
      ["foo", "foo.1"] ∧
    (prototypeCodegen ⟨"foo", ["a", "b"]⟩
        (prototypeCodegen ⟨"foo", ["a"]⟩ cgInit).2).2.module.length = 2 ∧
    (prototypeCodegen ⟨"foo", ["a", "b"]⟩
        (prototypeCodegen ⟨"foo", ["a"]⟩ cgInit).2).1.name ≠ "foo" := by
  refine ⟨rfl, rfl, rfl, ?_⟩
  decide

/-- C2 (amended): `PrototypeAST::codegen` always creates a fresh function
    and appends it to the module — under the prototype's own name when
    that name is free, under a renamed symbol otherwise; it never
    retrieves an existing declaration.  (Reuse of an existing declaration
    happens only in `FunctionAST::codegen`, which looks the name up
    before falling back to prototype codegen.) -/
theorem prototypeCodegen_always_creates (p : Prototype) (st : CGState) :
    (prototypeCodegen p st).2.module =
      st.module ++ [(prototypeCodegen p st).1] ∧
    (prototypeCodegen p st).1.params = p.args ∧
    (prototypeCodegen p st).1.blocks = [] ∧
    (lookupFunction st.module p.name = none →
      (prototypeCodegen p st).1.name = p.name) := by
  refine ⟨rfl, rfl, rfl, fun h => ?_⟩
  exact uniquifyName_of_free st.module p.name
    ((lookupFunction_eq_none_iff st.module p.name).mp h)

/-- Witness for the amended C2 at a concrete prototype and state. -/
theorem prototypeCodegen_always_creates_witness :
    (prototypeCodegen ⟨"foo", ["a"]⟩ cgInit).2.module =
      [] ++ [(prototypeCodegen ⟨"foo", ["a"]⟩ cgInit).1] ∧
    (prototypeCodegen ⟨"foo", ["a"]⟩ cgInit).1.name = "foo" := by
  have h := prototypeCodegen_always_creates ⟨"foo", ["a"]⟩ cgInit
  exact ⟨h.1, h.2.2.2 rfl⟩

/-- C3: `extern foo(a b)` followed by `def foo(a b) a+b` makes the
    definition's codegen find the extern's declaration by name and attach
    the body to it: the run succeeds, reports no error, and the module
    afterwards holds exactly one function `foo`, whose single block adds
    the two parameters and returns the sum. -/
theorem extern_then_def_attaches_body :
    runC3.1.isSome = true ∧
    runC3.2.errors = [] ∧
    runC3.2.module =
      [⟨"foo", ["a", "b"],
        [[Instr.add (Value.arg "foo" 0) (Value.arg "foo" 1),
          Instr.ret (Value.instrRef 0)]]⟩] :=
  ⟨rfl, rfl, rfl⟩

theorem isNumChar_not_alpha (c : Char) (h : isNumChar c = true) :
    isalphaC c = false := by
  simp only [isNumChar, isalphaC, Char.isDigit, Char.isAlpha, Char.isUpper, Char.isLower,
    Bool.or_eq_true, Bool.and_eq_true, decide_eq_true_eq, ge_iff_le, UInt32.le_def,
    BitVec.le_def, Bool.or_eq_false_iff, Bool.and_eq_false_iff,
    decide_eq_false_iff_not, not_le] at h ⊢
  rcases h with ⟨h1, h2⟩ | h3
  · have e57 : (UInt32.toBitVec 57).toNat = 57 := rfl
    have e65 : (UInt32.toBitVec 65).toNat = 65 := rfl
    have e90 : (UInt32.toBitVec 90).toNat = 90 := rfl
    have e97 : (UInt32.toBitVec 97).toNat = 97 := rfl
    have e122 : (UInt32.toBitVec 122).toNat = 122 := rfl
    omega
  · subst h3
    decide

theorem strtodQ_nonneg (cs : List Char) : 0 ≤ strtodQ cs := by
  unfold strtodQ
  cases cs.dropWhile Char.isDigit with
  | nil => positivity
  | cons c r2 =>
      simp only []
      split <;> positivity

theorem getok_number_branch (input : List Char) (c : Char) (rest : List Char)
    (hdw : input.dropWhile isspaceC = c :: rest) (hnum : isNumChar c = true) :
    getok input =
      (Token.number (strtodQ (c :: rest.takeWhile isNumChar)),
       rest.dropWhile isNumChar) := by
  have ha := isNumChar_not_alpha c hnum
  unfold getok
  rw [hdw]
  simp [ha, hnum]

theorem dropWhile_head_not {α : Type} {p : α → Bool} :
    ∀ (l : List α) (d : α) (ds : List α), l.dropWhile p = d :: ds → p d = false := by
  intro l
  induction l with
  | nil => intro d ds h; simp [List.dropWhile] at h
  | cons a t ih =>
      intro d ds h
      rw [List.dropWhile_cons] at h
      by_cases hp : p a = true
      · rw [if_pos hp] at h
        exact ih d ds h
      · rw [if_neg hp] at h
        cases h
        simpa using hp

mutual

theorem exprCodegen_module : ∀ (e : Expr) (st : CGState),
    (exprCodegen e st).2.module = st.module
  | Expr.num v, st => by simp [exprCodegen]
  | Expr.var n, st => by
      simp only [exprCodegen]
      cases mapFind st.namedValues n <;> simp [logErrorV]
  | Expr.binary op l r, st => by
      have hl := exprCodegen_module l st
      have hr := exprCodegen_module r (exprCodegen l st).2
      simp only [exprCodegen]
      cases hL : (exprCodegen l st).1 <;> cases hR : (exprCodegen r (exprCodegen l st).2).1 <;>
        simp only [hL, hR] <;>
        first
        | (split_ifs <;> simp [emit, emitSt, logErrorV, hl, hr])
        | (rw [hr, hl])
  | Expr.call callee args, st => by
      have ha := argsCodegen_module args st
      simp only [exprCodegen]
      cases hF : lookupFunction st.module callee with
      | none => simp [logErrorV]
      | some F =>
        simp only []
        split_ifs with hn
        · simp [logErrorV]
        · cases hA : argsCodegen args st with
          | mk o st1 =>
            cases o <;> simp_all [emit, emitSt]

theorem argsCodegen_module : ∀ (l : List Expr) (st : CGState),
    (argsCodegen l st).2.module = st.module
  | [], st => by simp [argsCodegen]
  | a :: rest, st => by
      have h1 := exprCodegen_module a st
      have h2 := argsCodegen_module rest (exprCodegen a st).2
      simp only [argsCodegen]
      cases hA : exprCodegen a st with
      | mk o st1 =>
        cases o with
        | none => simpa [hA] using h1
        | some v =>
          rw [hA] at h1 h2
          cases hB : argsCodegen rest st1 with
          | mk o2 st2 =>
            cases o2 <;> rw [hB] at h2 <;> simp_all

end

/-- C4: when the body of a function definition fails to generate,
    `FunctionAST::codegen` returns the null result and erases the
    function from the module: afterwards the module is the original one
    with every function of that name removed (so a `getFunction` lookup
    finds nothing), and the instructions emitted into the erased
    function's block are gone with it. -/
theorem functionCodegen_failure_erases (f : FunctionAST) (st : CGState)
    (h : (exprCodegen f.body
        (bodyEntry (resolveFn f.proto st).1 (resolveFn f.proto st).2)).1 = none) :
    (functionCodegen f st).1 = none ∧
    (functionCodegen f st).2.module =
      st.module.filter (fun g => g.name ≠ f.proto.name) ∧
    lookupFunction (functionCodegen f st).2.module f.proto.name = none := by
  have hname : (resolveFn f.proto st).1.name = f.proto.name := by
    cases hl : lookupFunction st.module f.proto.name with
    | some F => simp [resolveFn, hl, lookupFunction_name _ _ _ hl]
    | none =>
        simp [resolveFn, hl, prototypeCodegen]
        exact uniquifyName_of_free _ _ ((lookupFunction_eq_none_iff _ _).mp hl)
  have hmod : (resolveFn f.proto st).2.module.filter
      (fun g => g.name ≠ f.proto.name) =
      st.module.filter (fun g => g.name ≠ f.proto.name) := by
    cases hl : lookupFunction st.module f.proto.name with
    | some F => simp [resolveFn, hl]
    | none =>
        simp [resolveFn, hl, prototypeCodegen, List.filter_append]
        exact uniquifyName_of_free _ _ ((lookupFunction_eq_none_iff _ _).mp hl)
  have hbody := exprCodegen_module f.body
      (bodyEntry (resolveFn f.proto st).1 (resolveFn f.proto st).2)
  have hres : functionCodegen f st =
      (none,
       { (exprCodegen f.body
            (bodyEntry (resolveFn f.proto st).1 (resolveFn f.proto st).2)).2 with
         module := (exprCodegen f.body
            (bodyEntry (resolveFn f.proto st).1 (resolveFn f.proto st).2)).2.module.filter
              (fun g => g.name ≠ (resolveFn f.proto st).1.name),
         builder := [] }) := by
    simp only [functionCodegen]
    rcases hE : exprCodegen f.body
        (bodyEntry (resolveFn f.proto st).1 (resolveFn f.proto st).2) with ⟨o, st3⟩
    rw [hE] at h
    cases o with
    | none => simp
    | some v => simp at h
  have hmodfin : (functionCodegen f st).2.module =
      st.module.filter (fun g => g.name ≠ f.proto.name) := by
    rw [hres]
    simp only []
    rw [hbody, hname]
    · exact hmod
  refine ⟨by rw [hres], hmodfin, ?_⟩
  rw [hmodfin]
  rw [lookupFunction_eq_none_iff]
  simp [nameTaken, List.mem_filter]

/-- Witness for C4: `def foo(a) x` has an unknown-variable body, so its
    codegen fails and leaves the (initially empty) module empty. -/
theorem functionCodegen_failure_erases_witness :
    (functionCodegen ⟨⟨"foo", ["a"]⟩, Expr.var "x"⟩ cgInit).1 = none ∧
    (functionCodegen ⟨⟨"foo", ["a"]⟩, Expr.var "x"⟩ cgInit).2.module = [] := by
  have h := functionCodegen_failure_erases ⟨⟨"foo", ["a"]⟩, Expr.var "x"⟩ cgInit rfl
  exact ⟨h.1, by rw [h.2.1]; rfl⟩

/-- C5 counterexample: the code's diagnostics are
    "Incorrect # arguments passed" and "Unknown function referenced", not
    the claim's quoted strings "incorrect number of arguments" and
    "unknown function referenced": calling 1-parameter `f` with two
    arguments (resp. calling undeclared `g`) logs exactly the former and
    never the latter.  The behavioural part of the claim does hold: the
    call fails with an empty builder (no instructions, arguments not
    generated). -/
theorem callCodegen_message_counterexample :
    (exprCodegen (Expr.call "f" [Expr.num 1, Expr.num 2])
        (prototypeCodegen ⟨"f", ["x"]⟩ cgInit).2).1 = none ∧
    (exprCodegen (Expr.call "f" [Expr.num 1, Expr.num 2])
        (prototypeCodegen ⟨"f", ["x"]⟩ cgInit).2).2.errors =
      ["Incorrect # arguments passed"] ∧
    "incorrect number of arguments" ∉
      (exprCodegen (Expr.call "f" [Expr.num 1, Expr.num 2])
        (prototypeCodegen ⟨"f", ["x"]⟩ cgInit).2).2.errors ∧
    (exprCodegen (Expr.call "f" [Expr.num 1, Expr.num 2])
        (prototypeCodegen ⟨"f", ["x"]⟩ cgInit).2).2.builder = [] ∧
    (exprCodegen (Expr.call "g" []) (prototypeCodegen ⟨"f", ["x"]⟩ cgInit).2).2.errors =
      ["Unknown function referenced"] ∧
    "unknown function referenced" ∉
      (exprCodegen (Expr.call "g" []) (prototypeCodegen ⟨"f", ["x"]⟩ cgInit).2).2.errors := by
  refine ⟨rfl, rfl, ?_, rfl, rfl, ?_⟩ <;> decide

/-- C5 (amended): `CallExprAST::codegen` looks the callee up in the
    module; if absent it fails logging "Unknown function referenced", and
    on an argument-count mismatch against the declared parameter list it
    fails logging "Incorrect # arguments passed" — in both cases before
    generating any argument and leaving the state otherwise untouched (no
    instruction emitted, module/builder unchanged). -/
theorem callCodegen_error_paths (callee : String) (args : List Expr) (st : CGState) :
    (lookupFunction st.module callee = none →
      exprCodegen (Expr.call callee args) st =
        (none, { st with errors := st.errors ++ ["Unknown function referenced"] })) ∧
    (∀ F, lookupFunction st.module callee = some F →
      F.params.length ≠ args.length →
      exprCodegen (Expr.call callee args) st =
        (none, { st with errors := st.errors ++ ["Incorrect # arguments passed"] })) := by
  constructor
  · intro h
    simp [exprCodegen, h, logErrorV]
  · intro F hF hn
    simp [exprCodegen, hF, hn, logErrorV]

/-- Witness for the amended C5: the arity-mismatch path at a concrete
    module and call. -/
theorem callCodegen_error_paths_witness :
    exprCodegen (Expr.call "f" [Expr.num 1, Expr.num 2])
        (prototypeCodegen ⟨"f", ["x"]⟩ cgInit).2 =
      (none, { (prototypeCodegen ⟨"f", ["x"]⟩ cgInit).2 with
               errors := (prototypeCodegen ⟨"f", ["x"]⟩ cgInit).2.errors ++
                 ["Incorrect # arguments passed"] }) := by
  exact (callCodegen_error_paths "f" [Expr.num 1, Expr.num 2]
      (prototypeCodegen ⟨"f", ["x"]⟩ cgInit).2).2
    ⟨"f", ["x"], []⟩ rfl (by decide)

/-- C6: `BinaryExprAST::codegen` generates the left operand, then the
    right, and if either came back null propagates null (with both
    operands' side effects kept); with both values available `+`, `-`,
    `*` emit the corresponding arithmetic instruction, `<` emits an
    unsigned-less-than compare followed by a zero-extension of its `i1`
    result back to `i32`, and any other operator fails logging
    "invalid binary operator". -/
theorem binaryCodegen_dispatch (op : Char) (l r : Expr) (st : CGState) :
    ((exprCodegen l st).1 = none ∨ (exprCodegen r (exprCodegen l st).2).1 = none →
      exprCodegen (Expr.binary op l r) st =
        (none, (exprCodegen r (exprCodegen l st).2).2)) ∧
    (∀ L R, (exprCodegen l st).1 = some L →
      (exprCodegen r (exprCodegen l st).2).1 = some R →
      (op = '+' → exprCodegen (Expr.binary op l r) st =
          (some (Value.instrRef (exprCodegen r (exprCodegen l st).2).2.nextId),
           emitSt (Instr.add L R) (exprCodegen r (exprCodegen l st).2).2)) ∧
      (op = '-' → exprCodegen (Expr.binary op l r) st =
          (some (Value.instrRef (exprCodegen r (exprCodegen l st).2).2.nextId),
           emitSt (Instr.sub L R) (exprCodegen r (exprCodegen l st).2).2)) ∧
      (op = '*' → exprCodegen (Expr.binary op l r) st =
          (some (Value.instrRef (exprCodegen r (exprCodegen l st).2).2.nextId),
           emitSt (Instr.mul L R) (exprCodegen r (exprCodegen l st).2).2)) ∧
      (op = '<' → exprCodegen (Expr.binary op l r) st =
          (some (Value.instrRef ((exprCodegen r (exprCodegen l st).2).2.nextId + 1)),
           emitSt (Instr.zext (Value.instrRef (exprCodegen r (exprCodegen l st).2).2.nextId) 32)
             (emitSt (Instr.icmpULT L R) (exprCodegen r (exprCodegen l st).2).2))) ∧
      (op ≠ '+' → op ≠ '-' → op ≠ '*' → op ≠ '<' →
        exprCodegen (Expr.binary op l r) st =
          (none, { (exprCodegen r (exprCodegen l st).2).2 with
                   errors := (exprCodegen r (exprCodegen l st).2).2.errors ++
                     ["invalid binary operator"] }))) := by
  constructor
  · intro h
    simp only [exprCodegen]
    rcases h with h | h
    · rw [h]
    · rw [h]
      rcases (exprCodegen l st).1 <;> rfl
  · intro L R hL hR
    refine ⟨?_, ?_, ?_, ?_, ?_⟩
    · intro hop; subst hop; simp [exprCodegen, hL, hR, emit, emitSt]
    · intro hop; subst hop; simp [exprCodegen, hL, hR, emit, emitSt]
    · intro hop; subst hop; simp [exprCodegen, hL, hR, emit, emitSt]
    · intro hop; subst hop; simp [exprCodegen, hL, hR, emit, emitSt]
    · intro h1 h2 h3 h4
      simp [exprCodegen, hL, hR, h1, h2, h3, h4, logErrorV]

/-- Witness for C6: the unsupported operator `&` on two constants fails
    with exactly the "invalid binary operator" diagnostic. -/
theorem binaryCodegen_dispatch_witness :
    exprCodegen (Expr.binary '&' (Expr.num 1) (Expr.num 2)) cgInit =
      (none, { cgInit with errors := cgInit.errors ++ ["invalid binary operator"] }) := by
  exact ((binaryCodegen_dispatch '&' (Expr.num 1) (Expr.num 2) cgInit).2
      (Value.constInt 32 (ratToConst32 1)) (Value.constInt 32 (ratToConst32 2))
      rfl rfl).2.2.2.2 (by decide) (by decide) (by decide) (by decide)

/-- C7: when the first non-whitespace character is a digit or '.', the
    lexer returns one number token whose text is the maximal following
    run of digits and dots (the run is all digits/dots, concatenates with
    the leftover to the original input, and the leftover starts with a
    non-number character), with the value read by the `strtod` model and
    no validation; in particular `1.2.3` lexes as a single number token
    (value 1.2, `strtod`'s greedy prefix) instead of being rejected. -/
theorem getok_number_maximal :
    (∀ (input : List Char) (c : Char) (rest : List Char),
      input.dropWhile isspaceC = c :: rest → isNumChar c = true →
      getok input =
        (Token.number (strtodQ (c :: rest.takeWhile isNumChar)),
         rest.dropWhile isNumChar) ∧
      (c :: rest.takeWhile isNumChar).all isNumChar = true ∧
      (c :: rest.takeWhile isNumChar) ++ rest.dropWhile isNumChar = c :: rest ∧
      (∀ d ds, rest.dropWhile isNumChar = d :: ds → isNumChar d = false)) ∧
    getok "1.2.3".data = (Token.number (strtodQ "1.2.3".data), []) ∧
    strtodQ "1.2.3".data = 6 / 5 := by
  refine ⟨?_, rfl, ?_⟩
  · intro input c rest hdw hnum
    refine ⟨getok_number_branch input c rest hdw hnum, ?_, ?_, ?_⟩
    · rw [List.all_eq_true]
      intro x hx
      rcases List.mem_cons.mp hx with hx | hx
      · exact hx ▸ hnum
      · exact List.mem_takeWhile_imp hx
    · rw [List.cons_append, List.takeWhile_append_dropWhile]
    · intro d ds h
      exact dropWhile_head_not rest d ds h
  · have h : strtodQ "1.2.3".data =
        ((1 : ℕ) : ℚ) + ((2 : ℕ) : ℚ) / (10 : ℚ) ^ (1 : ℕ) := rfl
    rw [h]; norm_num

/-- Witness for C7 at the input `1.2.3`. -/
theorem getok_number_maximal_witness :
    getok ['1', '.', '2', '.', '3'] =
      (Token.number (strtodQ ['1', '.', '2', '.', '3']), []) ∧
    (['1', '.', '2', '.', '3'].all isNumChar) = true := by
  have h := getok_number_maximal.1 ['1', '.', '2', '.', '3'] '1' ['.', '2', '.', '3']
    rfl (by decide)
  exact ⟨h.1, h.2.1⟩

/-- C8: `NumberExprAST::codegen` emits the 32-bit integer constant
    obtained by truncating the lexed decimal value (the lexer only
    produces nonnegative values, so the `double`→`uint64_t` truncation is
    the floor, narrowed to 32 bits); the literal `2.9` lexes to the value
    29/10 and emits the integer constant 2. -/
theorem numberCodegen_const32 :
    (∀ (st : CGState) (v : ℚ), exprCodegen (Expr.num v) st =
      (some (Value.constInt 32 (ratToConst32 v)), st)) ∧
    strtodQ "2.9".data = 29 / 10 ∧
    ratToConst32 (29 / 10) = 2 ∧
    (∀ (input : List Char) (v : ℚ) (rest : List Char),
      getok input = (Token.number v, rest) → 0 ≤ v) := by
  refine ⟨fun st v => by simp [exprCodegen], ?_, ?_, ?_⟩
  · have h : strtodQ "2.9".data =
        ((2 : ℕ) : ℚ) + ((9 : ℕ) : ℚ) / (10 : ℚ) ^ (1 : ℕ) := rfl
    rw [h]; norm_num
  · have hf : ⌊(29 / 10 : ℚ)⌋ = 2 := by
      rw [Int.floor_eq_iff]
      norm_num
    simp [ratToConst32, hf]
  · intro input v rest h
    unfold getok at h
    rcases hdw : input.dropWhile isspaceC with _ | ⟨c, rest'⟩
    · rw [hdw] at h
      simp at h
    · rw [hdw] at h
      simp only [] at h
      split_ifs at h <;> simp_all
      exact h.1 ▸ strtodQ_nonneg _

/-- Witness for C8: the constant emitted for the literal value of `2.9`
    is the 32-bit integer 2, and the lexed value is nonnegative. -/
theorem numberCodegen_const32_witness :
    exprCodegen (Expr.num (29 / 10)) cgInit = (some (Value.constInt 32 2), cgInit) ∧
    (0 : ℚ) ≤ 29 / 10 := by
  refine ⟨?_, numberCodegen_const32.2.2.2 "2.9".data (29 / 10) [] ?_⟩
  · rw [numberCodegen_const32.1 cgInit (29 / 10), numberCodegen_const32.2.2.1]
  · rw [← numberCodegen_const32.2.1]
    rfl

/-- C10: when a definition's name is already declared in the module,
    `FunctionAST::codegen` uses the existing declaration as-is: the
    symbol table for the body is built from the declared function's
    parameter names, and the definition's own prototype parameter list is
    never consulted (no count or name check) — the generated result is
    identical for any two parameter lists on the `def`. -/
theorem functionCodegen_ignores_def_params (name : String)
    (args1 args2 : List String) (body : Expr) (st : CGState) (F : Func)
    (h : lookupFunction st.module name = some F) :
    resolveFn ⟨name, args1⟩ st = (F, st) ∧
    bodyEntry (resolveFn ⟨name, args1⟩ st).1 (resolveFn ⟨name, args1⟩ st).2 =
      { st with builder := [], namedValues := nvOfFunc F } ∧
    functionCodegen ⟨⟨name, args1⟩, body⟩ st =
      functionCodegen ⟨⟨name, args2⟩, body⟩ st := by
  have h1 : resolveFn ⟨name, args1⟩ st = (F, st) := by simp [resolveFn, h]
  have h2 : resolveFn ⟨name, args2⟩ st = (F, st) := by simp [resolveFn, h]
  refine ⟨h1, by rw [h1]; rfl, ?_⟩
  simp only [functionCodegen, h1, h2]

/-- Witness for C10: after `extern foo(a b)`, the definition
    `def foo(x y) a+b` generates exactly as `def foo(a b) a+b` does — and
    in fact succeeds, because the body is resolved against the extern's
    parameters `a b`, not the definition's own `x y`. -/
theorem functionCodegen_ignores_def_params_witness :
    functionCodegen ⟨⟨"foo", ["x", "y"]⟩, Expr.binary '+' (Expr.var "a") (Expr.var "b")⟩
        (prototypeCodegen ⟨"foo", ["a", "b"]⟩ cgInit).2 =
      functionCodegen ⟨⟨"foo", ["a", "b"]⟩, Expr.binary '+' (Expr.var "a") (Expr.var "b")⟩
        (prototypeCodegen ⟨"foo", ["a", "b"]⟩ cgInit).2 ∧
    (functionCodegen ⟨⟨"foo", ["x", "y"]⟩, Expr.binary '+' (Expr.var "a") (Expr.var "b")⟩
        (prototypeCodegen ⟨"foo", ["a", "b"]⟩ cgInit).2).1.isSome = true := by
  have h := functionCodegen_ignores_def_params "foo" ["x", "y"] ["a", "b"]
    (Expr.binary '+' (Expr.var "a") (Expr.var "b"))
    (prototypeCodegen ⟨"foo", ["a", "b"]⟩ cgInit).2 ⟨"foo", ["a", "b"], []⟩ rfl
  exact ⟨h.2.2, rfl⟩

mutual

/-- Expression codegen on an expression whose operators all come from
    the precedence table only ever logs lookup/arity diagnostics, never
    "invalid binary operator". -/
theorem exprCodegen_no_invalid_op : ∀ (e : Expr) (st : CGState),
    opsValid e = true →
    ∃ new, (exprCodegen e st).2.errors = st.errors ++ new ∧
      "invalid binary operator" ∉ new
  | Expr.num v, st, _ => ⟨[], by simp [exprCodegen], by simp⟩
  | Expr.var n, st, _ => by
      simp only [exprCodegen]
      cases mapFind st.namedValues n with
      | none =>
          exact ⟨["Unknown variable name"], by simp [logErrorV], by simp⟩
      | some v => exact ⟨[], by simp, by simp⟩
  | Expr.binary op l r, st, h => by
      obtain ⟨⟨hop, hl⟩, hr⟩ :
          ((((op = '<' ∨ op = '+') ∨ op = '-') ∨ op = '*') ∧ opsValid l = true) ∧
            opsValid r = true := by
        simpa [opsValid, Bool.and_eq_true] using h
      obtain ⟨n1, e1, ni1⟩ := exprCodegen_no_invalid_op l st hl
      obtain ⟨n2, e2, ni2⟩ := exprCodegen_no_invalid_op r (exprCodegen l st).2 hr
      have hboth : (exprCodegen r (exprCodegen l st).2).2.errors =
          st.errors ++ (n1 ++ n2) := by rw [e2, e1, List.append_assoc]
      have hni : "invalid binary operator" ∉ n1 ++ n2 := by
        simp only [List.mem_append]
        rintro (hc | hc)
        · exact ni1 hc
        · exact ni2 hc
      simp only [exprCodegen]
      cases hL : (exprCodegen l st).1 with
      | none =>
          exact ⟨n1 ++ n2, by
            cases hR : (exprCodegen r (exprCodegen l st).2).1 <;> simpa using hboth, hni⟩
      | some L =>
          cases hR : (exprCodegen r (exprCodegen l st).2).1 with
          | none => exact ⟨n1 ++ n2, by simpa using hboth, hni⟩
          | some R =>
              rcases hop with ((hc | hc) | hc) | hc <;> subst hc <;>
                exact ⟨n1 ++ n2, by simp [emit, emitSt, hboth], hni⟩
  | Expr.call callee args, st, h => by
      have hargs : opsValidList args = true := by simpa [opsValid] using h
      obtain ⟨na, ea, nia⟩ := argsCodegen_no_invalid_op args st hargs
      simp only [exprCodegen]
      cases hF : lookupFunction st.module callee with
      | none =>
          exact ⟨["Unknown function referenced"], by simp [logErrorV], by simp⟩
      | some F =>
          simp only []
          split_ifs with hn
          · exact ⟨["Incorrect # arguments passed"], by simp [logErrorV], by simp⟩
          · cases hA : argsCodegen args st with
            | mk o st1 =>
              rw [hA] at ea
              cases o with
              | none => exact ⟨na, by simpa [hA] using ea, nia⟩
              | some vs => exact ⟨na, by simpa [hA, emit, emitSt] using ea, nia⟩

/-- The argument-list companion of `exprCodegen_no_invalid_op`. -/
theorem argsCodegen_no_invalid_op : ∀ (l : List Expr) (st : CGState),
    opsValidList l = true →
    ∃ new, (argsCodegen l st).2.errors = st.errors ++ new ∧
      "invalid binary operator" ∉ new
  | [], st, _ => ⟨[], by simp [argsCodegen], by simp⟩
  | a :: rest, st, h => by
      have h' : opsValid a = true ∧ opsValidList rest = true := by
        simpa [opsValidList, Bool.and_eq_true] using h
      obtain ⟨n1, e1, ni1⟩ := exprCodegen_no_invalid_op a st h'.1
      obtain ⟨n2, e2, ni2⟩ := argsCodegen_no_invalid_op rest (exprCodegen a st).2 h'.2
      have hni : "invalid binary operator" ∉ n1 ++ n2 := by
        simp only [List.mem_append]
        rintro (hc | hc)
        · exact ni1 hc
        · exact ni2 hc
      simp only [argsCodegen]
      cases hA : exprCodegen a st with
      | mk o st1 =>
        rw [hA] at e1 e2
        cases o with
        | none => exact ⟨n1, by simpa using e1, ni1⟩
        | some v =>
            cases hB : argsCodegen rest st1 with
            | mk o2 st2 =>
              rw [hB] at e2
              have e1' : st1.errors = st.errors ++ n1 := e1
              cases o2 with
              | none =>
                  have e2' : st2.errors = st1.errors ++ n2 := e2
                  exact ⟨n1 ++ n2, by simp [hB, e2', e1', List.append_assoc], hni⟩
              | some vs =>
                  have e2' : st2.errors = st1.errors ++ n2 := e2
                  exact ⟨n1 ++ n2, by simp [hB, e2', e1', List.append_assoc], hni⟩

end

/-- A character with non-negative table precedence is one of the four
    installed operators. -/
theorem binopPrecedence_mem (c : Char) (h : 0 ≤ binopPrecedence c) :
    (c = '<' || c = '+' || c = '-' || c = '*') = true := by
  by_contra hc
  simp only [Bool.or_eq_true, decide_eq_true_eq, not_or] at hc
  obtain ⟨⟨⟨h1, h2⟩, h3⟩, h4⟩ := hc
  simp [binopPrecedence, h1, h2, h3, h4] at h

/-- The parser invariant, by induction on fuel simultaneously for all
    six parsing functions: every successfully parsed expression satisfies
    `opsValid` (for `ParseBinOpRHS`, provided the minimum precedence is
    non-negative, which holds at every call site, and the accumulated
    left-hand side is valid). -/
theorem parser_opsValid_all : ∀ fuel : Nat,
    (∀ s e s2, parsePrimary fuel s = some (e, s2) → opsValid e = true) ∧
    (∀ nm s e s2, parseIdentTail fuel nm s = some (e, s2) → opsValid e = true) ∧
    (∀ s l s2, parseArgsLoop fuel s = some (l, s2) → opsValidList l = true) ∧
    (∀ s e s2, parseParenTail fuel s = some (e, s2) → opsValid e = true) ∧
    (∀ p lhs s e s2, 0 ≤ p → opsValid lhs = true →
      parseBinOpRHS fuel p lhs s = some (e, s2) → opsValid e = true) ∧
    (∀ s e s2, parseExpression fuel s = some (e, s2) → opsValid e = true) := by
  intro fuel
  induction fuel with
  | zero =>
      refine ⟨?_, ?_, ?_, ?_, ?_, ?_⟩ <;> intros <;>
        simp_all [parsePrimary, parseIdentTail, parseArgsLoop, parseParenTail,
          parseBinOpRHS, parseExpression]
  | succ n ih =>
      obtain ⟨ihP, ihI, ihA, ihPar, ihB, ihE⟩ := ih
      have primary : ∀ s e s2, parsePrimary (n + 1) s = some (e, s2) →
          opsValid e = true := by
        intro s e s2 h
        simp only [parsePrimary] at h
        cases hc : s.cur with
        | ident nm =>
            rw [hc] at h
            exact ihI nm (advance s) e s2 h
        | number v =>
            rw [hc] at h
            simp at h
            exact h.1 ▸ rfl
        | punct c =>
            rw [hc] at h
            simp only [] at h
            split_ifs at h
            exact ihPar (advance s) e s2 h
        | eof => rw [hc] at h; simp at h
        | defKw => rw [hc] at h; simp at h
        | externKw => rw [hc] at h; simp at h
      have identTail : ∀ nm s e s2, parseIdentTail (n + 1) nm s = some (e, s2) →
          opsValid e = true := by
        intro nm s e s2 h
        simp only [parseIdentTail] at h
        split_ifs at h with hpar hclose
        · simp at h
          exact h.1 ▸ rfl
        · cases hA : parseArgsLoop n (advance s) with
          | none => rw [hA] at h; simp at h
          | some r =>
              obtain ⟨args, s3⟩ := r
              rw [hA] at h
              simp at h
              have hargs := ihA (advance s) args s3 hA
              exact h.1 ▸ (by simpa [opsValid] using hargs)
        · simp at h
          exact h.1 ▸ rfl
      have argsLoop : ∀ s l s2, parseArgsLoop (n + 1) s = some (l, s2) →
          opsValidList l = true := by
        intro s l s2 h
        simp only [parseArgsLoop] at h
        cases hE : parseExpression n s with
        | none => rw [hE] at h; simp at h
        | some r =>
            obtain ⟨arg, s1⟩ := r
            rw [hE] at h
            simp only [] at h
            have harg := ihE s arg s1 hE
            split_ifs at h with h1 h2
            · simp at h
              exact h.1 ▸ (by simp [opsValidList, harg])
            · cases hA : parseArgsLoop n (advance s1) with
              | none => rw [hA] at h; simp at h
              | some r2 =>
                  obtain ⟨args, s3⟩ := r2
                  rw [hA] at h
                  simp at h
                  have hrest := ihA (advance s1) args s3 hA
                  exact h.1 ▸ (by simp [opsValidList, harg, hrest])
      have parenTail : ∀ s e s2, parseParenTail (n + 1) s = some (e, s2) →
          opsValid e = true := by
        intro s e s2 h
        simp only [parseParenTail] at h
        cases hE : parseExpression n s with
        | none => rw [hE] at h; simp at h
        | some r =>
            obtain ⟨v, s1⟩ := r
            rw [hE] at h
            simp only [] at h
            split_ifs at h
            simp at h
            exact h.1 ▸ ihE s v s1 hE
      have binRHS : ∀ p lhs s e s2, 0 ≤ p → opsValid lhs = true →
          parseBinOpRHS (n + 1) p lhs s = some (e, s2) → opsValid e = true := by
        intro p lhs s e s2 hp hlhs h
        simp only [parseBinOpRHS] at h
        split_ifs at h with htp
        · simp at h
          exact h.1 ▸ hlhs
        · cases hc : s.cur with
          | punct op =>
              rw [hc] at h
              rw [hc] at htp
              simp only [getTokPrecedence, not_lt] at htp
              have hopmem := binopPrecedence_mem op (le_trans hp htp)
              simp only [] at h
              cases hP : parsePrimary n (advance s) with
              | none => rw [hP] at h; simp at h
              | some r =>
                  obtain ⟨rhs, s3⟩ := r
                  rw [hP] at h
                  simp only [] at h
                  have hrhs := ihP (advance s) rhs s3 hP
                  split_ifs at h with hnext
                  · cases hB : parseBinOpRHS n (getTokPrecedence (Token.punct op) + 1)
                        rhs s3 with
                    | none => rw [hB] at h; simp at h
                    | some r2 =>
                        obtain ⟨rhs2, s4⟩ := r2
                        rw [hB] at h
                        have h0 : (0 : Int) ≤ getTokPrecedence (Token.punct op) + 1 := by
                          have := le_trans hp htp
                          simp only [getTokPrecedence]
                          omega
                        have hrhs2 := ihB _ rhs s3 rhs2 s4 h0 hrhs hB
                        exact ihB p (Expr.binary op lhs rhs2) s4 e s2 hp
                          (by simp [opsValid, hopmem, hlhs, hrhs2]) h
                  · exact ihB p (Expr.binary op lhs rhs) s3 e s2 hp
                      (by simp [opsValid, hopmem, hlhs, hrhs]) h
          | eof => rw [hc] at h; simp at h; exact h.1 ▸ hlhs
          | defKw => rw [hc] at h; simp at h; exact h.1 ▸ hlhs
          | externKw => rw [hc] at h; simp at h; exact h.1 ▸ hlhs
          | ident nm => rw [hc] at h; simp at h; exact h.1 ▸ hlhs
          | number v => rw [hc] at h; simp at h; exact h.1 ▸ hlhs
      have expre : ∀ s e s2, parseExpression (n + 1) s = some (e, s2) →
          opsValid e = true := by
        intro s e s2 h
        simp only [parseExpression] at h
        cases hP : parsePrimary n s with
        | none => rw [hP] at h; simp at h
        | some r =>
            obtain ⟨lhs, s1⟩ := r
            rw [hP] at h
            simp only [] at h
            exact ihB 0 lhs s1 e s2 le_rfl (ihP s lhs s1 hP) h
      exact ⟨primary, identTail, argsLoop, parenTail, binRHS, expre⟩

/-- C9: every expression `ParseExpression` produces has all its binary
    operators among `<`, `+`, `-`, `*` (a `BinaryExprAST` is only built
    after `GetTokPrecedence` returned a table precedence, and every other
    token's −1 stops operator accumulation); consequently code generation
    of a parser-produced expression can never log the
    "invalid binary operator" diagnostic. -/
theorem parser_ops_valid_no_invalid_op :
    (∀ fuel s e s2, parseExpression fuel s = some (e, s2) → opsValid e = true) ∧
    (∀ e st, opsValid e = true →
      ∃ new, (exprCodegen e st).2.errors = st.errors ++ new ∧
        "invalid binary operator" ∉ new) :=
  ⟨fun fuel s e s2 h => (parser_opsValid_all fuel).2.2.2.2.2 s e s2 h,
   fun e st h => exprCodegen_no_invalid_op e st h⟩

/-- Witness for C9: the parse of `1+2*3` is ops-valid and its codegen
    adds no "invalid binary operator" diagnostic. -/
theorem parser_ops_valid_no_invalid_op_witness :
    opsValid (Expr.binary '+' (Expr.num 1)
      (Expr.binary '*' (Expr.num 2) (Expr.num 3))) = true ∧
    ∃ new, (exprCodegen (Expr.binary '+' (Expr.num 1)
        (Expr.binary '*' (Expr.num 2) (Expr.num 3))) cgInit).2.errors =
      cgInit.errors ++ new ∧ "invalid binary operator" ∉ new := by
  have h1 := parser_ops_valid_no_invalid_op.1 100 (initState "1+2*3")
    (Expr.binary '+' (Expr.num 1) (Expr.binary '*' (Expr.num 2) (Expr.num 3)))
    ⟨Token.eof, []⟩ rfl
  exact ⟨h1, parser_ops_valid_no_invalid_op.2 _ cgInit h1⟩
